/-
Verification of the neural-network engine of rust-neural-nets
(src/src/model/neural_net.rs), shallowly embedded over exact reals.
Matrices are row-major lists of rows; f64 arithmetic is modelled by the
real numbers, except where a claim hinges on IEEE-754 special values,
which are modelled by the inductive type F further below.
-/
import Mathlib

noncomputable section

/-- A matrix row or a bias vector: f64 values modelled as reals. -/
abbrev Vec : Type := List ℝ

/-- A row-major matrix (ndarray Array2, one list entry per row). -/
abbrev Mat : Type := List Vec

/-- One layer of the net: a weight matrix and a bias vector
(neural_net.rs line 9: layers hold a weight matrix and a bias vector). -/
abbrev Layer : Type := Mat × Vec

/-- Default layer returned by getD when indexing; source indexing panics out
of bounds, and the theorems below keep every index in bounds. -/
def dLayer : Layer := ([], [])

/-- Dot product of two rows (ndarray dot on 1-d arrays). -/
def dotV (a b : Vec) : ℝ := (List.zipWith (fun x y => x * y) a b).sum

/-- Number of columns of a row-major matrix: length of the first row. -/
def ncolsM (A : Mat) : ℕ := (A.headD []).length

/-- Transpose (ndarray .t()). Column j is read off with getD, which equals
the true column entries on rectangular matrices. -/
def transposeM (A : Mat) : Mat :=
  (List.range (ncolsM A)).map (fun j => A.map (fun row => row.getD j 0))

/-- Matrix product (ndarray .dot on 2-d arrays). -/
def matMul (A B : Mat) : Mat :=
  A.map (fun row => (transposeM B).map (fun col => dotV row col))

/-- Matrix plus a bias vector broadcast across the rows
(ndarray binary + with a 1-d right operand). -/
def addBias (A : Mat) (b : Vec) : Mat :=
  A.map (fun row => List.zipWith (fun x y => x + y) row b)

/-- Apply a scalar function to every entry (ndarray .map). -/
def matMap (f : ℝ → ℝ) (A : Mat) : Mat := A.map (fun row => row.map f)

/-- Elementwise product (ndarray binary * on two 2-d arrays). -/
def hadamard (A B : Mat) : Mat :=
  List.zipWith (List.zipWith (fun x y => x * y)) A B

/-- Elementwise difference of two matrices. -/
def matSub (A B : Mat) : Mat :=
  List.zipWith (List.zipWith (fun x y => x - y)) A B

/-- Scalar times matrix. -/
def smulM (c : ℝ) (A : Mat) : Mat := matMap (fun x => c * x) A

/-- Elementwise difference of two vectors. -/
def vecSub (a b : Vec) : Vec := List.zipWith (fun x y => x - y) a b

/-- Scalar times vector. -/
def smulV (c : ℝ) (v : Vec) : Vec := v.map (fun x => c * x)

/-- Columnwise mean (ndarray mean_axis(Axis(0))): the mean over the batch
dimension, one entry per column. -/
def meanAxis0 (A : Mat) : Vec :=
  (transposeM A).map (fun col => col.sum / (A.length : ℝ))

/-- The selectable activation functions (neural_net.rs lines 16-23). -/
inductive ActivationFunction where
  | ReLU : ActivationFunction
  | Sigmoid : ActivationFunction
  | Tanh : ActivationFunction
  | Linear : ActivationFunction
  | LeakyReLU : ActivationFunction

/-- The weight initialization policies (neural_net.rs lines 25-29). -/
inductive InitMethod where
  | Default : InitMethod
  | Xavier : InitMethod

/-- activation (neural_net.rs lines 173-181). -/
def activation (name : ActivationFunction) (z : ℝ) : ℝ :=
  match name with
  | .ReLU => max z 0
  | .Sigmoid => (1 + Real.exp (-z))⁻¹
  | .Tanh => (Real.exp z - Real.exp (-z)) / (Real.exp z + Real.exp (-z))
  | .Linear => 3 * z + 1
  | .LeakyReLU => max z (0.01 * z)

open Classical in
/-- delta_activation (neural_net.rs lines 183-191). -/
def delta_activation (name : ActivationFunction) (z : ℝ) : ℝ :=
  match name with
  | .ReLU => if 0 < z then 1 else 0
  | .Sigmoid => activation name z * (1 - activation name z)
  | .Tanh => 1 - activation name z * activation name z
  | .Linear => 3
  | .LeakyReLU => if 0 < z then 1 else 0.01

/-- Loop body of forward (neural_net.rs lines 64-79): walk the layers with
the running activated output, collecting activated outputs and linear
outputs; peeking at the iterator decides whether this is the last layer. -/
def forwardGo (af : ActivationFunction) : Mat → List Layer → List Mat × List Mat
  | _, [] => ([], [])
  | cur, layer :: rest =>
      let lin_output := addBias (matMul cur layer.1) layer.2
      let real_output :=
        if rest.isEmpty then lin_output else matMap (activation af) lin_output
      (real_output :: (forwardGo af real_output rest).1,
       lin_output :: (forwardGo af real_output rest).2)

/-- forward (neural_net.rs lines 57-82): the activated outputs start with the
raw input (the passthrough first entry pushed at line 61). -/
def forward (af : ActivationFunction) (layers : List Layer) (inputs : Mat) :
    List Mat × List Mat :=
  (inputs :: (forwardGo af inputs layers).1, (forwardGo af inputs layers).2)

/-- Loop of backward_and_update (neural_net.rs lines 94-114), counting the
remaining iterations: a call with counter n + 1 performs the body at
idx = n and recurses. Returns the updated layer list together with, per
iteration, the pair (gradient used at this layer, gradient propagated to
the previous layer), ordered from the last layer to the first. -/
def backwardLoop (af : ActivationFunction) (lr : ℝ)
    (hidden hidden_linear : List Mat) :
    ℕ → List Layer → Mat → List Layer × List (Mat × Mat)
  | 0, layers, _ => (layers, [])
  | n + 1, layers, gradIn =>
      let grad1 :=
        if n = layers.length - 1 then gradIn
        else hadamard gradIn (matMap (delta_activation af) (hidden_linear.getD n []))
      let weight_grad := matMul (transposeM (hidden.getD n [])) grad1
      let bias_grad := meanAxis0 grad1
      let newW := matSub (layers.getD n dLayer).1 (smulM lr weight_grad)
      let newB := vecSub (layers.getD n dLayer).2 (smulV lr bias_grad)
      let gradNext := matMul grad1 (transposeM (layers.getD n dLayer).1)
      ((backwardLoop af lr hidden hidden_linear n (layers.set n (newW, newB)) gradNext).1,
       (grad1, gradNext) ::
         (backwardLoop af lr hidden hidden_linear n (layers.set n (newW, newB)) gradNext).2)

/-- backward_and_update (neural_net.rs lines 85-115): run the loop from
idx = layers.length - 1 down to 0 and return the updated layers. -/
def backward_and_update (af : ActivationFunction) (lr : ℝ)
    (hidden hidden_linear : List Mat) (layers : List Layer) (grad : Mat) :
    List Layer :=
  (backwardLoop af lr hidden hidden_linear layers.length layers grad).1

/-- The per-iteration gradient trace of backward_and_update: entry k holds
(gradient used at layer layers.length - 1 - k, gradient propagated to the
layer below), exactly the values grad_help takes at lines 98 and 111. -/
def backwardTrace (af : ActivationFunction) (lr : ℝ)
    (hidden hidden_linear : List Mat) (layers : List Layer) (grad : Mat) :
    List (Mat × Mat) :=
  (backwardLoop af lr hidden hidden_linear layers.length layers grad).2

/-- An m-by-n matrix with prescribed entries, used to model
Array::zeros((m, n)).map(drawing one sample per entry). -/
def mkMat (m n : ℕ) (entry : ℕ → ℕ → ℝ) : Mat :=
  (List.range m).map (fun r => (List.range n).map (fun c => entry r c))

/-- init_layers_default (neural_net.rs lines 193-210). The entropy source is
modelled by rng, giving the value drawn for (layer, row, column); theorems
constrain it to the support of Uniform::new(-0.3, 0.3). The none branch
models the panic of the source on an empty width list: with
layer_structure.len() = 0 the loop bound len - 1 underflows. -/
def init_layers_default (rng : ℕ → ℕ → ℕ → ℝ) (layer_structure : List ℕ) :
    Option (List Layer) :=
  if layer_structure.length = 0 then none
  else
    some ((List.range (layer_structure.length - 1)).map (fun i =>
      (mkMat (layer_structure.getD i 0) (layer_structure.getD (i + 1) 0) (rng i),
       List.replicate (layer_structure.getD (i + 1) 0) 1)))

/-- The Xavier bound of layer i (neural_net.rs line 217):
sqrt 6 divided by (fan_in + fan_out). -/
def xavier_boundary (layer_structure : List ℕ) (i : ℕ) : ℝ :=
  Real.sqrt 6 /
    ((layer_structure.getD i 0 : ℝ) + (layer_structure.getD (i + 1) 0 : ℝ))

/-- init_layers_xavier (neural_net.rs lines 212-229). The entropy source is
modelled by rng; theorems constrain layer i draws to the support of
Uniform::new(-xavier_boundary, xavier_boundary). Biases start at zero.
The none branch models the same empty-list panic as the Default policy. -/
def init_layers_xavier (rng : ℕ → ℕ → ℕ → ℝ) (layer_structure : List ℕ) :
    Option (List Layer) :=
  if layer_structure.length = 0 then none
  else
    some ((List.range (layer_structure.length - 1)).map (fun i =>
      (mkMat (layer_structure.getD i 0) (layer_structure.getD (i + 1) 0) (rng i),
       List.replicate (layer_structure.getD (i + 1) 0) 0)))

/-- The network record (neural_net.rs lines 8-14). -/
structure NeuralNet where
  layers : List Layer
  num_epochs : ℕ
  batch_size : ℕ
  learning_rate : ℝ
  activation_function : ActivationFunction

/-- NeuralNet::new (neural_net.rs lines 33-53): dispatch on the init method
and package the hyperparameters. No validation is performed. -/
def NeuralNet.new (rng : ℕ → ℕ → ℕ → ℝ) (layer_structure : List ℕ)
    (num_epochs batch_size : ℕ) (learning_rate : ℝ)
    (activation_function : ActivationFunction) (init_method : InitMethod) :
    Option NeuralNet :=
  (match init_method with
   | .Default => init_layers_default rng layer_structure
   | .Xavier => init_layers_xavier rng layer_structure).map
    (fun layers =>
      { layers := layers, num_epochs := num_epochs, batch_size := batch_size,
        learning_rate := learning_rate, activation_function := activation_function })

/-- The row maximum (neural_net.rs line 233:
scores.iter().max_by(total_cmp).unwrap()). The empty case is junk: the
source unwrap panics there, and theorems assume a nonempty row. -/
def rowMax : List ℝ → ℝ
  | [] => 0
  | x :: xs => xs.foldl max x

/-- softmax (neural_net.rs lines 232-242): shift by the row maximum,
exponentiate, normalize by the sum of exponentials. -/
def softmax (scores : List ℝ) : List ℝ :=
  (scores.map (fun x => x - rowMax scores)).map
    (fun x =>
      Real.exp x / ((scores.map (fun y => y - rowMax scores)).map Real.exp).sum)

/-- An f64 value including the IEEE-754 special values: nan, signed
infinities (inf true is positive infinity), and finite values modelled as
exact reals. Used only where a claim depends on these special values. -/
inductive F where
  | nan : F
  | inf : Bool → F
  | fin : ℝ → F

/-- IEEE-754 addition on F, restricted to the value classes above. -/
def F.add : F → F → F
  | .nan, _ => .nan
  | _, .nan => .nan
  | .fin x, .fin y => .fin (x + y)
  | .fin _, .inf s => .inf s
  | .inf s, .fin _ => .inf s
  | .inf s, .inf t => if s = t then .inf s else .nan

open Classical in
/-- IEEE-754 multiplication on F: zero times an infinity is nan. -/
def F.mul : F → F → F
  | .nan, _ => .nan
  | _, .nan => .nan
  | .fin x, .fin y => .fin (x * y)
  | .fin x, .inf s => if x = 0 then .nan else .inf (if 0 < x then s else !s)
  | .inf s, .fin y => if y = 0 then .nan else .inf (if 0 < y then s else !s)
  | .inf s, .inf t => .inf (s == t)

open Classical in
/-- IEEE-754 base-2 logarithm on F (f64::log2): the logarithm of zero is
negative infinity, of a negative value nan. -/
def F.log2 : F → F
  | .nan => .nan
  | .inf s => if s then .inf true else .nan
  | .fin x =>
      if x = 0 then .inf false
      else if 0 < x then .fin (Real.logb 2 x) else .nan

/-- Dot product over F values (ndarray dot: sum of products, the sum
starting from 0.0). -/
def dotF (a b : List F) : F := (List.zipWith F.mul a b).foldl F.add (F.fin 0)

/-- cross_entropy (neural_net.rs lines 245-253) over IEEE f64 values: for
each row pair, target dot (log2 of each prediction entry), summed over the
batch, then scaled by -1 * (1 / nrows). -/
def cross_entropy_fp (predictions target : List (List F)) : F :=
  F.mul
    (F.mul (F.fin (-1)) (F.fin (1 / (predictions.length : ℝ))))
    ((List.zipWith (fun actual_row target_row => dotF target_row (actual_row.map F.log2))
        predictions target).foldl F.add (F.fin 0))

open Classical in
/-- Modelled from the spec: the early-stopping variant of the training loop
is code of this repository that is not under src (src holds the
fixed-epoch fit at neural_net.rs lines 121-156, while src/src/main.rs
calls NeuralNet::new with an epsilon tolerance and an optional epoch
count, the signature of the missing variant). Following section 4.5 of
the spec: after each epoch t the validation loss lossOf t is computed;
when a previous loss exists and the absolute difference is below eps the
loop stops at epoch t, otherwise it continues; the first epoch has no
previous loss and never stops. fuel bounds the remaining epochs and the
result is the epoch at which the loop stops. -/
def early_stopping_fit (lossOf : ℕ → ℝ) (eps : ℝ) :
    ℕ → Option ℝ → ℕ → ℕ
  | 0, _, t => t
  | fuel + 1, none, t => early_stopping_fit lossOf eps fuel (some (lossOf t)) (t + 1)
  | fuel + 1, some prev, t =>
      if |lossOf t - prev| < eps then t
      else early_stopping_fit lossOf eps fuel (some (lossOf t)) (t + 1)

/-- The backpropagated gradient of section 4.4 of the spec, by distance j
from the last layer: at the last layer it is the incoming output-layer
gradient; one layer down, the gradient is pushed through the transpose of
the weights of the layer above and elementwise-multiplied by the
activation derivative at the stored linear output of this layer. -/
def specGradAux (af : ActivationFunction) (layers : List Layer)
    (hidden_linear : List Mat) (grad : Mat) : ℕ → Mat
  | 0 => grad
  | j + 1 =>
      hadamard
        (matMul (specGradAux af layers hidden_linear grad j)
          (transposeM (layers.getD (layers.length - 1 - j) dLayer).1))
        (matMap (delta_activation af)
          (hidden_linear.getD (layers.length - 2 - j) []))

/-- The backpropagated gradient at layer idx, as the spec describes it. -/
def specGrad (af : ActivationFunction) (layers : List Layer)
    (hidden_linear : List Mat) (grad : Mat) (idx : ℕ) : Mat :=
  specGradAux af layers hidden_linear grad (layers.length - 1 - idx)

/-- The gradient value entering the loop iteration with counter n: the raw
output gradient at the top of the loop, and below that the gradient
propagated through the transpose of the (pre-update) weights of layer n. -/
def entryGrad (af : ActivationFunction) (layers : List Layer)
    (hidden_linear : List Mat) (grad : Mat) (n : ℕ) : Mat :=
  if n = layers.length then grad
  else
    matMul (specGrad af layers hidden_linear grad n)
      (transposeM (layers.getD n dLayer).1)

/-- A is an m-by-n matrix: m rows, each of length n. -/
def HasShape (A : Mat) (m n : ℕ) : Prop :=
  A.length = m ∧ ∀ row ∈ A, row.length = n

instance (A : Mat) (m n : ℕ) : Decidable (HasShape A m n) := by
  unfold HasShape
  infer_instance

theorem listGetD_set_self {α : Type _} (l : List α) (i : ℕ) (a d : α)
    (h : i < l.length) : (l.set i a).getD i d = a := by
  induction l generalizing i with
  | nil => simp at h
  | cons x xs ih =>
    cases i with
    | zero => rfl
    | succ n =>
      have hn : n < xs.length := by simpa using h
      simpa using ih n hn

theorem listGetD_set_ne {α : Type _} (l : List α) (i j : ℕ) (a d : α)
    (h : i ≠ j) : (l.set i a).getD j d = l.getD j d := by
  induction l generalizing i j with
  | nil => simp
  | cons x xs ih =>
    cases i with
    | zero =>
      cases j with
      | zero => exact absurd rfl h
      | succ m => simp
    | succ n =>
      cases j with
      | zero => simp
      | succ m =>
        have : n ≠ m := fun he => h (by rw [he])
        simpa using ih n m this

theorem headD_mem {α : Type _} (l : List α) (d : α) (h : l ≠ []) :
    l.headD d ∈ l := by
  cases l with
  | nil => exact absurd rfl h
  | cons x xs => simp

theorem getD_map_range {α : Type _} (f : ℕ → α) (n i : ℕ) (d : α)
    (h : i < n) : ((List.range n).map f).getD i d = f i := by
  have hlen : i < ((List.range n).map f).length := by simpa using h
  rw [List.getD_eq_getElem _ _ hlen]
  simp

theorem listSum_pos (l : List ℝ) (h : ∀ x ∈ l, 0 < x) (hne : l ≠ []) :
    0 < l.sum := by
  induction l with
  | nil => exact absurd rfl hne
  | cons x xs ih =>
    rcases eq_or_ne xs [] with h1 | h1
    · subst h1; simpa using h x (by simp)
    · have hxs := ih (fun y hy => h y (List.mem_cons_of_mem _ hy)) h1
      simp only [List.sum_cons]
      exact add_pos (h x (List.mem_cons_self x xs)) hxs

theorem listSum_div (l : List ℝ) (c : ℝ) :
    (l.map (fun x => x / c)).sum = l.sum / c := by
  induction l with
  | nil => simp
  | cons x xs ih => simp [ih, add_div]

theorem foldl_max_add (c : ℝ) :
    ∀ (xs : List ℝ) (a : ℝ),
      (xs.map (fun y => y + c)).foldl max (a + c) = xs.foldl max a + c := by
  intro xs
  induction xs with
  | nil => intro a; rfl
  | cons y ys ih =>
    intro a
    simp only [List.map_cons, List.foldl_cons]
    rw [max_add_add_right]
    exact ih (max a y)

theorem rowMax_shift (s : List ℝ) (c : ℝ) (h : s ≠ []) :
    rowMax (s.map (fun x => x + c)) = rowMax s + c := by
  cases s with
  | nil => exact absurd rfl h
  | cons x xs =>
    simp only [List.map_cons, rowMax]
    exact foldl_max_add c xs x

theorem ncolsM_of_shape (A : Mat) (m n : ℕ) (hA : HasShape A m n)
    (hm : 0 < m) : ncolsM A = n := by
  have hne : A ≠ [] := by
    intro he
    rw [he] at hA
    have := hA.1
    simp at this
    omega
  exact hA.2 (A.headD []) (headD_mem A [] hne)

theorem hasShape_transpose (A : Mat) (m n : ℕ) (hA : HasShape A m n)
    (hm : 0 < m) : HasShape (transposeM A) n m := by
  constructor
  · simp [transposeM, ncolsM_of_shape A m n hA hm]
  · intro row hr
    simp only [transposeM, List.mem_map] at hr
    obtain ⟨j, _, rfl⟩ := hr
    simp [hA.1]

theorem hasShape_matMul (A B : Mat) (m k n : ℕ)
    (hA : HasShape A m k) (hB : HasShape B k n) (hk : 0 < k) :
    HasShape (matMul A B) m n := by
  constructor
  · simp [matMul, hA.1]
  · intro row hr
    simp only [matMul, List.mem_map] at hr
    obtain ⟨r, _, rfl⟩ := hr
    simp [transposeM, ncolsM_of_shape B k n hB hk]

theorem hasShape_zipzip (f : ℝ → ℝ → ℝ) (A : Mat) :
    ∀ (B : Mat) (m n : ℕ), HasShape A m n → HasShape B m n →
      HasShape (List.zipWith (List.zipWith f) A B) m n := by
  induction A with
  | nil =>
    intro B m n hA _
    exact ⟨by simpa using hA.1, by simp⟩
  | cons a A ih =>
    intro B m n hA hB
    cases B with
    | nil =>
      exfalso
      have h1 := hA.1
      have h2 := hB.1
      simp at h1 h2
      omega
    | cons b B =>
      obtain ⟨hA1, hA2⟩ := hA
      obtain ⟨hB1, hB2⟩ := hB
      cases m with
      | zero => simp at hA1
      | succ m =>
        have htail : HasShape (List.zipWith (List.zipWith f) A B) m n :=
          ih B m n ⟨by simpa using hA1, fun r hr => hA2 r (by simp [hr])⟩
            ⟨by simpa using hB1, fun r hr => hB2 r (by simp [hr])⟩
        constructor
        · simpa using htail.1
        · intro row hr
          simp only [List.zipWith_cons_cons, List.mem_cons] at hr
          rcases hr with rfl | hr
          · rw [List.length_zipWith, hA2 a (by simp), hB2 b (by simp)]
            omega
          · exact htail.2 row hr

theorem hasShape_matMap (f : ℝ → ℝ) (A : Mat) (m n : ℕ)
    (hA : HasShape A m n) : HasShape (matMap f A) m n := by
  constructor
  · simp [matMap, hA.1]
  · intro row hr
    simp only [matMap, List.mem_map] at hr
    obtain ⟨r, hrA, rfl⟩ := hr
    simp [hA.2 r hrA]

theorem hasShape_hadamard (A B : Mat) (m n : ℕ) (hA : HasShape A m n)
    (hB : HasShape B m n) : HasShape (hadamard A B) m n :=
  hasShape_zipzip _ A B m n hA hB

theorem hasShape_matSub (A B : Mat) (m n : ℕ) (hA : HasShape A m n)
    (hB : HasShape B m n) : HasShape (matSub A B) m n :=
  hasShape_zipzip _ A B m n hA hB

theorem hasShape_smulM (c : ℝ) (A : Mat) (m n : ℕ) (hA : HasShape A m n) :
    HasShape (smulM c A) m n :=
  hasShape_matMap _ A m n hA

theorem length_meanAxis0 (A : Mat) (m n : ℕ) (hA : HasShape A m n)
    (hm : 0 < m) : (meanAxis0 A).length = n := by
  simp [meanAxis0, transposeM, ncolsM_of_shape A m n hA hm]

theorem length_vecSub (a b : Vec) (n : ℕ) (ha : a.length = n)
    (hb : b.length = n) : (vecSub a b).length = n := by
  simp [vecSub, List.length_zipWith, ha, hb]

theorem length_smulV (c : ℝ) (v : Vec) : (smulV c v).length = v.length := by
  simp [smulV]

theorem length_addBias_matMul (X W : Mat) (b : Vec) :
    (addBias (matMul X W) b).length = X.length := by
  simp [addBias, matMul]

theorem length_matMap (f : ℝ → ℝ) (A : Mat) : (matMap f A).length = A.length := by
  simp [matMap]

theorem length_row_addBias_matMul (X W : Mat) (b : Vec) (row : Vec)
    (hr : row ∈ addBias (matMul X W) b) :
    row.length = min (ncolsM W) b.length := by
  simp only [addBias, List.mem_map] at hr
  obtain ⟨r0, hr0, rfl⟩ := hr
  simp only [matMul, List.mem_map] at hr0
  obtain ⟨r1, _, rfl⟩ := hr0
  simp [transposeM, List.length_zipWith]

theorem forwardGo_lengths (af : ActivationFunction) :
    ∀ (layers : List Layer) (X : Mat),
      (forwardGo af X layers).1.length = layers.length ∧
      (forwardGo af X layers).2.length = layers.length := by
  intro layers
  induction layers with
  | nil => intro X; simp [forwardGo]
  | cons l rest ih =>
    intro X
    simp only [forwardGo, List.length_cons]
    constructor
    · simp [(ih _).1]
    · simp [(ih _).2]

theorem forwardGo_nrows (af : ActivationFunction) :
    ∀ (layers : List Layer) (X : Mat) (k : ℕ), k < layers.length →
      ((forwardGo af X layers).1.getD k []).length = X.length := by
  intro layers
  induction layers with
  | nil => intro X k hk; simp at hk
  | cons l rest ih =>
    intro X k hk
    cases k with
    | zero =>
      simp only [forwardGo, List.getD_cons_zero]
      cases rest with
      | nil => simp [addBias, matMul]
      | cons l2 r2 => simp [addBias, matMul, matMap]
    | succ k =>
      have hk2 : k < rest.length := by simpa using hk
      simp only [forwardGo, List.getD_cons_succ]
      rw [ih _ k hk2]
      cases rest with
      | nil => simp at hk2
      | cons l2 r2 => simp [addBias, matMul, matMap]

theorem forwardGo_char (af : ActivationFunction) :
    ∀ (layers : List Layer) (X : Mat) (k : ℕ), k < layers.length →
      (forwardGo af X layers).2.getD k [] =
        addBias (matMul ((X :: (forwardGo af X layers).1).getD k [])
          (layers.getD k dLayer).1) (layers.getD k dLayer).2 ∧
      (forwardGo af X layers).1.getD k [] =
        (if k = layers.length - 1 then (forwardGo af X layers).2.getD k []
         else matMap (activation af) ((forwardGo af X layers).2.getD k [])) := by
  intro layers
  induction layers with
  | nil => intro X k hk; simp at hk
  | cons l rest ih =>
    intro X k hk
    cases k with
    | zero =>
      constructor
      · simp [forwardGo]
      · cases rest with
        | nil => simp [forwardGo]
        | cons l2 r2 => simp [forwardGo]
    | succ k =>
      have hk2 : k < rest.length := by simpa using hk
      simp only [forwardGo, List.getD_cons_succ, List.getD_cons_succ,
        List.length_cons, Nat.succ_sub_one]
      obtain ⟨ih1, ih2⟩ := ih
        (if rest.isEmpty then addBias (matMul X l.1) l.2
         else matMap (activation af) (addBias (matMul X l.1) l.2)) k hk2
      refine ⟨ih1, ?_⟩
      rw [ih2]
      have hiff : (k + 1 = rest.length) ↔ (k = rest.length - 1) := by omega
      simp only [hiff]

/-- Claim C3: for every batch with at least one row and every network with
at least one layer, forward computes each linear output as the previous
activated output times the weights plus the broadcast bias, applies the
activation to every linear output except the last (whose activated output
is the linear output itself), returns the raw input as the first activated
entry and exactly one linear entry per layer, and the final output width
equals the output width of the last layer. -/
theorem forward_spec (af : ActivationFunction) (layers : List Layer) (X : Mat)
    (hL : layers ≠ []) (hB : 0 < X.length)
    (hlast : ((layers.getD (layers.length - 1) dLayer).2).length =
      ncolsM (layers.getD (layers.length - 1) dLayer).1) :
    (forward af layers X).1.getD 0 [] = X ∧
    (forward af layers X).1.length = layers.length + 1 ∧
    (forward af layers X).2.length = layers.length ∧
    (∀ k, k < layers.length →
      (forward af layers X).2.getD k [] =
        addBias (matMul ((forward af layers X).1.getD k [])
          (layers.getD k dLayer).1) (layers.getD k dLayer).2) ∧
    (∀ k, k + 1 < layers.length →
      (forward af layers X).1.getD (k + 1) [] =
        matMap (activation af) ((forward af layers X).2.getD k [])) ∧
    (forward af layers X).1.getD layers.length [] =
      (forward af layers X).2.getD (layers.length - 1) [] ∧
    ((forward af layers X).1.getD layers.length []).length = X.length ∧
    ncolsM ((forward af layers X).1.getD layers.length []) =
      ncolsM (layers.getD (layers.length - 1) dLayer).1 := by
  have hLpos : 0 < layers.length := List.length_pos.mpr hL
  obtain ⟨m, hm⟩ : ∃ m, layers.length = m + 1 := ⟨layers.length - 1, by omega⟩
  have h2 : (forward af layers X).1.length = layers.length + 1 := by
    show (X :: (forwardGo af X layers).1).length = layers.length + 1
    simp [(forwardGo_lengths af layers X).1]
  have h3 : (forward af layers X).2.length = layers.length :=
    (forwardGo_lengths af layers X).2
  have h6 : (forward af layers X).1.getD layers.length [] =
      (forward af layers X).2.getD (layers.length - 1) [] := by
    show (X :: (forwardGo af X layers).1).getD layers.length [] =
      (forwardGo af X layers).2.getD (layers.length - 1) []
    have hm2 : layers.length - 1 = m := by omega
    rw [hm2, hm]
    simp only [List.getD_cons_succ]
    have hchar := (forwardGo_char af layers X m (by omega)).2
    rw [if_pos (by omega : m = layers.length - 1)] at hchar
    exact hchar
  have h7 : ((forward af layers X).1.getD layers.length []).length = X.length := by
    show ((X :: (forwardGo af X layers).1).getD layers.length []).length = X.length
    rw [hm]
    simp only [List.getD_cons_succ]
    exact forwardGo_nrows af layers X m (by omega)
  have h8 : ncolsM ((forward af layers X).1.getD layers.length []) =
      ncolsM (layers.getD (layers.length - 1) dLayer).1 := by
    have hlenout : ((forwardGo af X layers).2.getD (layers.length - 1) []).length =
        X.length := by
      have h7x := h7
      rw [h6] at h7x
      exact h7x
    have hne : (forwardGo af X layers).2.getD (layers.length - 1) [] ≠ [] := by
      intro he
      rw [he] at hlenout
      simp at hlenout
      omega
    have hchar1 := (forwardGo_char af layers X (layers.length - 1) (by omega)).1
    have hmem : ((forwardGo af X layers).2.getD (layers.length - 1) []).headD [] ∈
        (forwardGo af X layers).2.getD (layers.length - 1) [] := headD_mem _ [] hne
    rw [hchar1] at hmem
    have hrow := length_row_addBias_matMul _ _ _ _ hmem
    rw [h6]
    show ncolsM ((forwardGo af X layers).2.getD (layers.length - 1) []) =
      ncolsM (layers.getD (layers.length - 1) dLayer).1
    simp only [ncolsM]
    rw [hchar1, hrow, hlast, min_self]
    rfl
  refine ⟨rfl, h2, h3, ?_, ?_, h6, h7, h8⟩
  · intro k hk
    exact (forwardGo_char af layers X k hk).1
  · intro k hk
    have hchar := (forwardGo_char af layers X k (by omega)).2
    rw [if_neg (by omega : ¬ k = layers.length - 1)] at hchar
    show (X :: (forwardGo af X layers).1).getD (k + 1) [] =
      matMap (activation af) ((forwardGo af X layers).2.getD k [])
    simp only [List.getD_cons_succ]
    exact hchar

/-- Witness for forward_spec: a one-layer net on a one-row batch. -/
theorem forward_spec_witness :
    (forward ActivationFunction.ReLU [([[3]], [5])] [[2]]).1.getD 0 [] = [[2]] ∧
    (forward ActivationFunction.ReLU [([[3]], [5])] [[2]]).1.length = 2 ∧
    (forward ActivationFunction.ReLU [([[3]], [5])] [[2]]).2.length = 1 ∧
    (∀ k, k < 1 →
      (forward ActivationFunction.ReLU [([[3]], [5])] [[2]]).2.getD k [] =
        addBias (matMul ((forward ActivationFunction.ReLU [([[3]], [5])] [[2]]).1.getD k [])
          (([([[3]], [5])] : List Layer).getD k dLayer).1)
          (([([[3]], [5])] : List Layer).getD k dLayer).2) ∧
    (∀ k, k + 1 < 1 →
      (forward ActivationFunction.ReLU [([[3]], [5])] [[2]]).1.getD (k + 1) [] =
        matMap (activation ActivationFunction.ReLU)
          ((forward ActivationFunction.ReLU [([[3]], [5])] [[2]]).2.getD k [])) ∧
    (forward ActivationFunction.ReLU [([[3]], [5])] [[2]]).1.getD 1 [] =
      (forward ActivationFunction.ReLU [([[3]], [5])] [[2]]).2.getD 0 [] ∧
    ((forward ActivationFunction.ReLU [([[3]], [5])] [[2]]).1.getD 1 []).length = 1 ∧
    ncolsM ((forward ActivationFunction.ReLU [([[3]], [5])] [[2]]).1.getD 1 []) =
      ncolsM (([([[3]], [5])] : List Layer).getD 0 dLayer).1 :=
  forward_spec ActivationFunction.ReLU [([[3]], [5])] [[2]]
    (List.cons_ne_nil _ _) (by decide) rfl

/-- Claim C4: softmax shifts by the row maximum before exponentiating and
normalizes by the sum of exponentials; on every nonempty row the output is
a probability distribution, with the sum exactly one over the exact reals
(the floating tolerance of the claim covers f64 rounding only). The source
panics on an empty row (unwrap of the row maximum), hence the nonemptiness
hypothesis. -/
theorem softmax_is_probability_distribution (scores : List ℝ) (h : scores ≠ []) :
    softmax scores =
      (scores.map (fun x => x - rowMax scores)).map
        (fun x => Real.exp x /
          ((scores.map (fun y => y - rowMax scores)).map Real.exp).sum) ∧
    (∀ p ∈ softmax scores, 0 ≤ p) ∧
    (softmax scores).sum = 1 := by
  have hmapne : scores.map (fun y => y - rowMax scores) ≠ [] := by
    intro he
    exact h (List.map_eq_nil_iff.mp he)
  have hsumpos :
      0 < ((scores.map (fun y => y - rowMax scores)).map Real.exp).sum := by
    apply listSum_pos
    · intro x hx
      simp only [List.mem_map] at hx
      obtain ⟨y, _, rfl⟩ := hx
      exact Real.exp_pos y
    · intro he
      exact hmapne (List.map_eq_nil_iff.mp he)
  refine ⟨rfl, ?_, ?_⟩
  · intro p hp
    simp only [softmax, List.mem_map] at hp
    obtain ⟨y, ⟨z, _, rfl⟩, rfl⟩ := hp
    exact div_nonneg (Real.exp_pos _).le hsumpos.le
  · have hrw : softmax scores =
        ((scores.map (fun y => y - rowMax scores)).map Real.exp).map
          (fun x => x /
            ((scores.map (fun y => y - rowMax scores)).map Real.exp).sum) := by
      simp [softmax, List.map_map, Function.comp]
    rw [hrw, listSum_div, div_self (ne_of_gt hsumpos)]

/-- Witness for softmax_is_probability_distribution at the row [0]. -/
theorem softmax_is_probability_distribution_witness :
    softmax [0] =
      (([0] : List ℝ).map (fun x => x - rowMax [0])).map
        (fun x => Real.exp x /
          ((([0] : List ℝ).map (fun y => y - rowMax [0])).map Real.exp).sum) ∧
    (∀ p ∈ softmax [0], 0 ≤ p) ∧
    (softmax [0]).sum = 1 :=
  softmax_is_probability_distribution [0] (List.cons_ne_nil 0 [])

/-- Claim C9: softmax is invariant under adding one constant to every entry
of a (nonempty) row. -/
theorem softmax_shift_invariant (scores : List ℝ) (c : ℝ) (h : scores ≠ []) :
    softmax (scores.map (fun x => x + c)) = softmax scores := by
  have hshift : (scores.map (fun x => x + c)).map
      (fun x => x - rowMax (scores.map (fun y => y + c))) =
      scores.map (fun x => x - rowMax scores) := by
    have hrm : rowMax (scores.map (fun y => y + c)) = rowMax scores + c := by
      have := rowMax_shift scores c h
      simpa using this
    rw [hrm, List.map_map]
    congr 1
    funext x
    simp only [Function.comp]
    ring
  simp only [softmax]
  rw [hshift]

/-- Witness for softmax_shift_invariant at the row [0, 1] and constant 2. -/
theorem softmax_shift_invariant_witness :
    softmax (([0, 1] : List ℝ).map (fun x => x + 2)) = softmax [0, 1] :=
  softmax_shift_invariant [0, 1] 2 (List.cons_ne_nil 0 [1])

theorem listGetD_mem {α : Type _} (l : List α) (i : ℕ) (d : α)
    (h : i < l.length) : l.getD i d ∈ l := by
  rw [List.getD_eq_getElem _ _ h]
  exact List.getElem_mem h

theorem specGrad_last (af : ActivationFunction) (layers0 : List Layer)
    (hidden_linear : List Mat) (grad0 : Mat) :
    specGrad af layers0 hidden_linear grad0 (layers0.length - 1) = grad0 := by
  unfold specGrad
  rw [show layers0.length - 1 - (layers0.length - 1) = 0 from by omega]
  rfl

theorem specGrad_step (af : ActivationFunction) (layers0 : List Layer)
    (hidden_linear : List Mat) (grad0 : Mat) (n : ℕ)
    (h : n + 1 < layers0.length) :
    specGrad af layers0 hidden_linear grad0 n =
      hadamard
        (matMul (specGrad af layers0 hidden_linear grad0 (n + 1))
          (transposeM (layers0.getD (n + 1) dLayer).1))
        (matMap (delta_activation af) (hidden_linear.getD n [])) := by
  unfold specGrad
  rw [show layers0.length - 1 - n = (layers0.length - 2 - n) + 1 from by omega]
  simp only [specGradAux]
  rw [show layers0.length - 1 - (layers0.length - 2 - n) = n + 1 from by omega,
    show layers0.length - 2 - (layers0.length - 2 - n) = n from by omega,
    show layers0.length - 2 - n = layers0.length - 1 - (n + 1) from by omega]

theorem backwardLoop_char (af : ActivationFunction) (lr : ℝ)
    (hidden hidden_linear : List Mat) (layers0 : List Layer) (grad0 : Mat) :
    ∀ (n : ℕ) (cur : List Layer) (gradIn : Mat),
      n ≤ layers0.length →
      cur.length = layers0.length →
      (∀ j, j < n → cur.getD j dLayer = layers0.getD j dLayer) →
      gradIn = entryGrad af layers0 hidden_linear grad0 n →
      (backwardLoop af lr hidden hidden_linear n cur gradIn).1.length = layers0.length ∧
      (∀ j, n ≤ j →
        (backwardLoop af lr hidden hidden_linear n cur gradIn).1.getD j dLayer =
          cur.getD j dLayer) ∧
      (∀ idx, idx < n →
        (backwardLoop af lr hidden hidden_linear n cur gradIn).1.getD idx dLayer =
          (matSub (layers0.getD idx dLayer).1
            (smulM lr (matMul (transposeM (hidden.getD idx []))
              (specGrad af layers0 hidden_linear grad0 idx))),
           vecSub (layers0.getD idx dLayer).2
            (smulV lr (meanAxis0 (specGrad af layers0 hidden_linear grad0 idx))))) ∧
      (backwardLoop af lr hidden hidden_linear n cur gradIn).2.length = n ∧
      (∀ k, k < n →
        (backwardLoop af lr hidden hidden_linear n cur gradIn).2.getD k ([], []) =
          (specGrad af layers0 hidden_linear grad0 (n - 1 - k),
           matMul (specGrad af layers0 hidden_linear grad0 (n - 1 - k))
             (transposeM (layers0.getD (n - 1 - k) dLayer).1))) := by
  intro n
  induction n with
  | zero =>
    intro cur gradIn hn hlen hagree hgrad
    exact ⟨hlen, fun j _ => rfl, fun idx h => absurd h (by omega), rfl,
      fun k h => absurd h (by omega)⟩
  | succ n ih =>
    intro cur gradIn hn hlen hagree hgrad
    have hcurn : cur.getD n dLayer = layers0.getD n dLayer := hagree n (by omega)
    have hgrad1 :
        (if n = cur.length - 1 then gradIn
         else hadamard gradIn
           (matMap (delta_activation af) (hidden_linear.getD n []))) =
        specGrad af layers0 hidden_linear grad0 n := by
      rcases Nat.eq_or_lt_of_le hn with hEq | hLt
      · rw [if_pos (by omega : n = cur.length - 1), hgrad]
        unfold entryGrad
        rw [if_pos (by omega : n + 1 = layers0.length),
          show n = layers0.length - 1 from by omega, specGrad_last]
      · rw [if_neg (by omega : ¬ n = cur.length - 1), hgrad]
        unfold entryGrad
        rw [if_neg (by omega : ¬ n + 1 = layers0.length)]
        exact (specGrad_step af layers0 hidden_linear grad0 n (by omega)).symm
    have hnext : matMul (specGrad af layers0 hidden_linear grad0 n)
        (transposeM (layers0.getD n dLayer).1) =
        entryGrad af layers0 hidden_linear grad0 n := by
      unfold entryGrad
      rw [if_neg (by omega : ¬ n = layers0.length)]
    have hstep : backwardLoop af lr hidden hidden_linear (n + 1) cur gradIn =
        ((backwardLoop af lr hidden hidden_linear n
            (cur.set n
              (matSub (layers0.getD n dLayer).1
                (smulM lr (matMul (transposeM (hidden.getD n []))
                  (specGrad af layers0 hidden_linear grad0 n))),
               vecSub (layers0.getD n dLayer).2
                (smulV lr (meanAxis0 (specGrad af layers0 hidden_linear grad0 n)))))
            (entryGrad af layers0 hidden_linear grad0 n)).1,
         (specGrad af layers0 hidden_linear grad0 n,
          entryGrad af layers0 hidden_linear grad0 n) ::
           (backwardLoop af lr hidden hidden_linear n
             (cur.set n
               (matSub (layers0.getD n dLayer).1
                 (smulM lr (matMul (transposeM (hidden.getD n []))
                   (specGrad af layers0 hidden_linear grad0 n))),
                vecSub (layers0.getD n dLayer).2
                 (smulV lr (meanAxis0 (specGrad af layers0 hidden_linear grad0 n)))))
             (entryGrad af layers0 hidden_linear grad0 n)).2) := by
      simp only [backwardLoop]
      rw [hgrad1, hcurn, hnext]
    obtain ⟨IH1, IH2, IH3, IH4, IH5⟩ :=
      ih (cur.set n
            (matSub (layers0.getD n dLayer).1
              (smulM lr (matMul (transposeM (hidden.getD n []))
                (specGrad af layers0 hidden_linear grad0 n))),
             vecSub (layers0.getD n dLayer).2
              (smulV lr (meanAxis0 (specGrad af layers0 hidden_linear grad0 n)))))
        (entryGrad af layers0 hidden_linear grad0 n)
        (by omega)
        (by rw [List.length_set]; exact hlen)
        (fun j hj => by
          rw [listGetD_set_ne cur n j _ dLayer (by omega)]
          exact hagree j (by omega))
        rfl
    rw [hstep]
    refine ⟨IH1, ?_, ?_, ?_, ?_⟩
    · intro j hj
      rw [IH2 j (by omega)]
      exact listGetD_set_ne cur n j _ dLayer (by omega)
    · intro idx hidx
      rcases Nat.lt_or_ge idx n with hlt | hge
      · exact IH3 idx hlt
      · have hidxn : idx = n := by omega
        subst hidxn
        rw [IH2 idx (by omega)]
        exact listGetD_set_self cur idx _ dLayer (by omega)
    · simp only [List.length_cons]
      rw [IH4]
    · intro k hk
      cases k with
      | zero =>
        simp only [List.getD_cons_zero]
        rw [show n + 1 - 1 - 0 = n from by omega, ← hnext]
      | succ k =>
        simp only [List.getD_cons_succ]
        rw [show n + 1 - 1 - (k + 1) = n - 1 - k from by omega]
        exact IH5 k (by omega)

/-- Claim C1: at every layer the backward engine uses the gradient specGrad
(which carries, for every layer except the last, the elementwise
activation-derivative factor evaluated at the stored linear output), takes
the weight gradient as the transposed input activations times that
gradient, the bias gradient as the mean of that gradient over the batch
dimension, and replaces the parameters by weight minus learning rate times
the weight gradient and bias minus learning rate times the bias gradient. -/
theorem backward_and_update_formulas (af : ActivationFunction) (lr : ℝ)
    (hidden hidden_linear : List Mat) (layers : List Layer) (grad : Mat)
    (idx : ℕ) (hidx : idx < layers.length) :
    (backward_and_update af lr hidden hidden_linear layers grad).getD idx dLayer =
      (matSub (layers.getD idx dLayer).1
        (smulM lr (matMul (transposeM (hidden.getD idx []))
          (specGrad af layers hidden_linear grad idx))),
       vecSub (layers.getD idx dLayer).2
        (smulV lr (meanAxis0 (specGrad af layers hidden_linear grad idx)))) := by
  have h := backwardLoop_char af lr hidden hidden_linear layers grad
    layers.length layers grad (le_refl _) rfl (fun j _ => rfl)
    (by unfold entryGrad; rw [if_pos rfl])
  exact h.2.2.1 idx hidx

/-- Witness for backward_and_update_formulas on a one-layer net. -/
theorem backward_and_update_formulas_witness :
    (backward_and_update ActivationFunction.ReLU 1 [[[2]]] [[[3]]]
        [([[5]], [7])] [[1]]).getD 0 dLayer =
      (matSub (([([[5]], [7])] : List Layer).getD 0 dLayer).1
        (smulM 1 (matMul (transposeM (([[[2]]] : List Mat).getD 0 []))
          (specGrad ActivationFunction.ReLU [([[5]], [7])] [[[3]]] [[1]] 0))),
       vecSub (([([[5]], [7])] : List Layer).getD 0 dLayer).2
        (smulV 1 (meanAxis0
          (specGrad ActivationFunction.ReLU [([[5]], [7])] [[[3]]] [[1]] 0)))) :=
  backward_and_update_formulas ActivationFunction.ReLU 1 [[[2]]] [[[3]]]
    [([[5]], [7])] [[1]] 0 (by decide)

/-- Claim C2: the gradient an iteration of the backward loop propagates to
the previous layer is the gradient used at this layer times the transpose
of the weight matrix read from the input layer list, i.e. the weights
before the update of that same iteration (the source reads
self.layers[idx].0 at line 111, before overwriting self.layers[idx] at
line 113). -/
theorem backward_propagates_preupdate_weight (af : ActivationFunction) (lr : ℝ)
    (hidden hidden_linear : List Mat) (layers : List Layer) (grad : Mat)
    (k : ℕ) (hk : k < layers.length) :
    (backwardTrace af lr hidden hidden_linear layers grad).getD k ([], []) =
      (specGrad af layers hidden_linear grad (layers.length - 1 - k),
       matMul (specGrad af layers hidden_linear grad (layers.length - 1 - k))
         (transposeM (layers.getD (layers.length - 1 - k) dLayer).1)) := by
  have h := backwardLoop_char af lr hidden hidden_linear layers grad
    layers.length layers grad (le_refl _) rfl (fun j _ => rfl)
    (by unfold entryGrad; rw [if_pos rfl])
  exact h.2.2.2.2 k hk

/-- Witness for backward_propagates_preupdate_weight on a one-layer net. -/
theorem backward_propagates_preupdate_weight_witness :
    (backwardTrace ActivationFunction.ReLU 1 [[[2]]] [[[3]]]
        [([[5]], [7])] [[1]]).getD 0 ([], []) =
      (specGrad ActivationFunction.ReLU [([[5]], [7])] [[[3]]] [[1]] 0,
       matMul (specGrad ActivationFunction.ReLU [([[5]], [7])] [[[3]]] [[1]] 0)
         (transposeM (([([[5]], [7])] : List Layer).getD 0 dLayer).1)) :=
  backward_propagates_preupdate_weight ActivationFunction.ReLU 1 [[[2]]] [[[3]]]
    [([[5]], [7])] [[1]] 0 (by decide)

theorem hasShape_specGradAux (af : ActivationFunction) (layers : List Layer)
    (hidden_linear : List Mat) (grad : Mat) (dims : List ℕ) (B : ℕ)
    (hdims : dims.length = layers.length + 1)
    (hpos : ∀ d ∈ dims, 0 < d)
    (hlayers : ∀ idx, idx < layers.length →
      HasShape (layers.getD idx dLayer).1 (dims.getD idx 0) (dims.getD (idx + 1) 0))
    (hlin : ∀ idx, idx < layers.length →
      HasShape (hidden_linear.getD idx []) B (dims.getD (idx + 1) 0))
    (hgrad : HasShape grad B (dims.getD layers.length 0)) :
    ∀ j, j ≤ layers.length - 1 →
      HasShape (specGradAux af layers hidden_linear grad j) B
        (dims.getD (layers.length - j) 0) := by
  intro j
  induction j with
  | zero =>
    intro _
    simpa using hgrad
  | succ j ihj =>
    intro hj
    have hL2 : j + 2 ≤ layers.length := by omega
    have hauxj := ihj (by omega)
    have hWidx : layers.length - 1 - j < layers.length := by omega
    have hW := hlayers (layers.length - 1 - j) hWidx
    rw [show layers.length - 1 - j + 1 = layers.length - j from by omega] at hW
    have hposW : 0 < dims.getD (layers.length - 1 - j) 0 :=
      hpos _ (listGetD_mem dims (layers.length - 1 - j) 0 (by omega))
    have hposIn : 0 < dims.getD (layers.length - j) 0 :=
      hpos _ (listGetD_mem dims (layers.length - j) 0 (by omega))
    have hWt : HasShape (transposeM (layers.getD (layers.length - 1 - j) dLayer).1)
        (dims.getD (layers.length - j) 0) (dims.getD (layers.length - 1 - j) 0) :=
      hasShape_transpose _ _ _ hW hposW
    have hMul : HasShape
        (matMul (specGradAux af layers hidden_linear grad j)
          (transposeM (layers.getD (layers.length - 1 - j) dLayer).1))
        B (dims.getD (layers.length - 1 - j) 0) :=
      hasShape_matMul _ _ B (dims.getD (layers.length - j) 0) _ hauxj hWt hposIn
    have hD := hlin (layers.length - 2 - j) (by omega)
    rw [show layers.length - 2 - j + 1 = layers.length - 1 - j from by omega] at hD
    have hDer : HasShape
        (matMap (delta_activation af) (hidden_linear.getD (layers.length - 2 - j) []))
        B (dims.getD (layers.length - 1 - j) 0) :=
      hasShape_matMap _ _ _ _ hD
    have hHad := hasShape_hadamard _ _ _ _ hMul hDer
    simp only [specGradAux]
    rw [show layers.length - (j + 1) = layers.length - 1 - j from by omega]
    exact hHad

theorem hasShape_specGrad (af : ActivationFunction) (layers : List Layer)
    (hidden_linear : List Mat) (grad : Mat) (dims : List ℕ) (B : ℕ)
    (hdims : dims.length = layers.length + 1)
    (hpos : ∀ d ∈ dims, 0 < d)
    (hlayers : ∀ idx, idx < layers.length →
      HasShape (layers.getD idx dLayer).1 (dims.getD idx 0) (dims.getD (idx + 1) 0))
    (hlin : ∀ idx, idx < layers.length →
      HasShape (hidden_linear.getD idx []) B (dims.getD (idx + 1) 0))
    (hgrad : HasShape grad B (dims.getD layers.length 0))
    (idx : ℕ) (hidx : idx < layers.length) :
    HasShape (specGrad af layers hidden_linear grad idx) B
      (dims.getD (idx + 1) 0) := by
  have h := hasShape_specGradAux af layers hidden_linear grad dims B hdims hpos
    hlayers hlin hgrad (layers.length - 1 - idx) (by omega)
  rw [show layers.length - (layers.length - 1 - idx) = idx + 1 from by omega] at h
  exact h

/-- Claim C10: backward_and_update keeps the number of layers and the exact
shape of every weight matrix and bias vector, for any consistently shaped
forward trace and output gradient over a nonempty batch and positive layer
widths; only the numeric entries change. -/
theorem backward_and_update_preserves_shapes (af : ActivationFunction) (lr : ℝ)
    (hidden hidden_linear : List Mat) (layers : List Layer) (grad : Mat)
    (dims : List ℕ) (B : ℕ)
    (hdims : dims.length = layers.length + 1)
    (hpos : ∀ d ∈ dims, 0 < d) (hB : 0 < B)
    (hlayers : ∀ idx, idx < layers.length →
      HasShape (layers.getD idx dLayer).1 (dims.getD idx 0) (dims.getD (idx + 1) 0) ∧
      ((layers.getD idx dLayer).2).length = dims.getD (idx + 1) 0)
    (hhid : ∀ idx, idx < layers.length →
      HasShape (hidden.getD idx []) B (dims.getD idx 0))
    (hlin : ∀ idx, idx < layers.length →
      HasShape (hidden_linear.getD idx []) B (dims.getD (idx + 1) 0))
    (hgrad : HasShape grad B (dims.getD layers.length 0)) :
    (backward_and_update af lr hidden hidden_linear layers grad).length =
      layers.length ∧
    (∀ idx, idx < layers.length →
      HasShape ((backward_and_update af lr hidden hidden_linear layers
          grad).getD idx dLayer).1 (dims.getD idx 0) (dims.getD (idx + 1) 0) ∧
      (((backward_and_update af lr hidden hidden_linear layers
          grad).getD idx dLayer).2).length = dims.getD (idx + 1) 0) := by
  have hchar := backwardLoop_char af lr hidden hidden_linear layers grad
    layers.length layers grad (le_refl _) rfl (fun j _ => rfl)
    (by unfold entryGrad; rw [if_pos rfl])
  refine ⟨hchar.1, ?_⟩
  intro idx hidx
  have hval := hchar.2.2.1 idx hidx
  have hG := hasShape_specGrad af layers hidden_linear grad dims B hdims hpos
    (fun i hi => (hlayers i hi).1) hlin hgrad idx hidx
  have hH := hhid idx hidx
  have hHt : HasShape (transposeM (hidden.getD idx [])) (dims.getD idx 0) B :=
    hasShape_transpose _ _ _ hH hB
  have hWG : HasShape (matMul (transposeM (hidden.getD idx []))
      (specGrad af layers hidden_linear grad idx))
      (dims.getD idx 0) (dims.getD (idx + 1) 0) :=
    hasShape_matMul _ _ _ B _ hHt hG hB
  have hW := (hlayers idx hidx).1
  have hb := (hlayers idx hidx).2
  have hnewW : HasShape (matSub (layers.getD idx dLayer).1
      (smulM lr (matMul (transposeM (hidden.getD idx []))
        (specGrad af layers hidden_linear grad idx))))
      (dims.getD idx 0) (dims.getD (idx + 1) 0) :=
    hasShape_matSub _ _ _ _ hW (hasShape_smulM lr _ _ _ hWG)
  have hmean : (meanAxis0 (specGrad af layers hidden_linear grad idx)).length =
      dims.getD (idx + 1) 0 :=
    length_meanAxis0 _ B _ hG hB
  have hnewB : (vecSub (layers.getD idx dLayer).2
      (smulV lr (meanAxis0 (specGrad af layers hidden_linear grad idx)))).length =
      dims.getD (idx + 1) 0 := by
    apply length_vecSub _ _ _ hb
    rw [length_smulV]
    exact hmean
  unfold backward_and_update
  rw [hval]
  exact ⟨hnewW, hnewB⟩

/-- Witness for backward_and_update_preserves_shapes on a one-layer net. -/
theorem backward_and_update_preserves_shapes_witness :
    (backward_and_update ActivationFunction.ReLU 1 [[[2]]] [[[3]]]
        [([[5]], [7])] [[1]]).length = 1 ∧
    (∀ idx, idx < 1 →
      HasShape ((backward_and_update ActivationFunction.ReLU 1 [[[2]]] [[[3]]]
          [([[5]], [7])] [[1]]).getD idx dLayer).1
        (([1, 1] : List ℕ).getD idx 0) (([1, 1] : List ℕ).getD (idx + 1) 0) ∧
      (((backward_and_update ActivationFunction.ReLU 1 [[[2]]] [[[3]]]
          [([[5]], [7])] [[1]]).getD idx dLayer).2).length =
        ([1, 1] : List ℕ).getD (idx + 1) 0) :=
  backward_and_update_preserves_shapes ActivationFunction.ReLU 1 [[[2]]] [[[3]]]
    [([[5]], [7])] [[1]] [1, 1] 1 (by decide) (by decide) (by decide)
    (by decide) (by decide) (by decide) (by decide)

/-- Claim C6 (amended): NeuralNet::new performs no validation of the width
list. With a width list of length zero, layer initialization panics (the
loop bound underflows; modelled as none) under either policy, and with any
single-width list the construction succeeds and returns a network whose
layer sequence is empty. No configuration error is detected at
construction. -/
theorem new_short_sequences (rng : ℕ → ℕ → ℕ → ℝ) (w num_epochs batch_size : ℕ)
    (lr : ℝ) (af : ActivationFunction) (im : InitMethod) :
    NeuralNet.new rng [] num_epochs batch_size lr af im = none ∧
    NeuralNet.new rng [w] num_epochs batch_size lr af im =
      some { layers := [], num_epochs := num_epochs, batch_size := batch_size,
             learning_rate := lr, activation_function := af } := by
  cases im <;>
    simp [NeuralNet.new, init_layers_default, init_layers_xavier]

/-- Counterexample to claim C6 as stated: the width list [5] has length one,
which is less than two, yet construction succeeds (yielding a network with
no layers) instead of failing with a configuration error. -/
theorem new_length_one_succeeds :
    NeuralNet.new (fun _ _ _ => 0) [5] 3 4 1 ActivationFunction.ReLU
      InitMethod.Default ≠ none := by
  simp [NeuralNet.new, init_layers_default]

/-- Claim C8: with a width list of length at least two, both policies build
exactly length - 1 layers; under Default every weight entry drawn from the
support of Uniform(-0.3, 0.3) lies in [-0.3, 0.3] and every bias entry is
one; under Xavier every weight entry of layer i, drawn from the support of
the uniform distribution bounded by xavier_boundary, lies within that bound
and every bias entry is zero. The support of each Uniform distribution is
the hypothesis on the injected entropy source. -/
theorem init_layers_bounds (rngD rngX : ℕ → ℕ → ℕ → ℝ) (ls : List ℕ)
    (h2 : 2 ≤ ls.length)
    (hD : ∀ i r c, -0.3 ≤ rngD i r c ∧ rngD i r c < 0.3)
    (hX : ∀ i, i < ls.length - 1 → ∀ r c,
      -(xavier_boundary ls i) ≤ rngX i r c ∧ rngX i r c < xavier_boundary ls i) :
    (∃ Ld, init_layers_default rngD ls = some Ld ∧
      Ld.length = ls.length - 1 ∧
      (∀ l ∈ Ld, (∀ row ∈ l.1, ∀ x ∈ row, -0.3 ≤ x ∧ x ≤ 0.3) ∧
        (∀ y ∈ l.2, y = 1))) ∧
    (∃ Lx, init_layers_xavier rngX ls = some Lx ∧
      Lx.length = ls.length - 1 ∧
      (∀ i, i < Lx.length →
        (∀ row ∈ (Lx.getD i dLayer).1, ∀ x ∈ row,
          -(xavier_boundary ls i) ≤ x ∧ x ≤ xavier_boundary ls i) ∧
        (∀ y ∈ (Lx.getD i dLayer).2, y = 0))) := by
  have hne : ¬ ls.length = 0 := by omega
  constructor
  · refine ⟨(List.range (ls.length - 1)).map (fun i =>
      (mkMat (ls.getD i 0) (ls.getD (i + 1) 0) (rngD i),
       List.replicate (ls.getD (i + 1) 0) 1)), ?_, ?_, ?_⟩
    · simp only [init_layers_default]
      rw [if_neg hne]
    · simp
    · intro l hl
      simp only [List.mem_map, List.mem_range] at hl
      obtain ⟨i, _, rfl⟩ := hl
      constructor
      · intro row hrow x hx
        simp only [mkMat, List.mem_map, List.mem_range] at hrow
        obtain ⟨r, _, rfl⟩ := hrow
        simp only [List.mem_map, List.mem_range] at hx
        obtain ⟨c, _, rfl⟩ := hx
        exact ⟨(hD i r c).1, (hD i r c).2.le⟩
      · intro y hy
        exact List.eq_of_mem_replicate hy
  · refine ⟨(List.range (ls.length - 1)).map (fun i =>
      (mkMat (ls.getD i 0) (ls.getD (i + 1) 0) (rngX i),
       List.replicate (ls.getD (i + 1) 0) 0)), ?_, ?_, ?_⟩
    · simp only [init_layers_xavier]
      rw [if_neg hne]
    · simp
    · intro i hi
      have hilen : i < ls.length - 1 := by simpa using hi
      rw [getD_map_range _ _ _ _ hilen]
      constructor
      · intro row hrow x hx
        simp only [mkMat, List.mem_map, List.mem_range] at hrow
        obtain ⟨r, _, rfl⟩ := hrow
        simp only [List.mem_map, List.mem_range] at hx
        obtain ⟨c, _, rfl⟩ := hx
        exact ⟨(hX i hilen r c).1, (hX i hilen r c).2.le⟩
      · intro y hy
        exact List.eq_of_mem_replicate hy

/-- Witness for init_layers_bounds at widths [2, 3] and all-zero draws. -/
theorem init_layers_bounds_witness :
    (∃ Ld, init_layers_default (fun _ _ _ => 0) [2, 3] = some Ld ∧
      Ld.length = 1 ∧
      (∀ l ∈ Ld, (∀ row ∈ l.1, ∀ x ∈ row, -0.3 ≤ x ∧ x ≤ 0.3) ∧
        (∀ y ∈ l.2, y = 1))) ∧
    (∃ Lx, init_layers_xavier (fun _ _ _ => 0) [2, 3] = some Lx ∧
      Lx.length = 1 ∧
      (∀ i, i < Lx.length →
        (∀ row ∈ (Lx.getD i dLayer).1, ∀ x ∈ row,
          -(xavier_boundary [2, 3] i) ≤ x ∧ x ≤ xavier_boundary [2, 3] i) ∧
        (∀ y ∈ (Lx.getD i dLayer).2, y = 0))) :=
  init_layers_bounds (fun _ _ _ => 0) (fun _ _ _ => 0) [2, 3] (by decide)
    (fun _ _ _ => ⟨by norm_num, by norm_num⟩)
    (fun i hi r c => by
      have hb : (0 : ℝ) < xavier_boundary [2, 3] i := by
        have hi1 : i < 1 := by simpa using hi
        have hi0 : i = 0 := by omega
        subst hi0
        simp only [xavier_boundary, List.getD_cons_zero, List.getD_cons_succ]
        positivity
      constructor
      · show -xavier_boundary [2, 3] i ≤ (0 : ℝ)
        linarith
      · show (0 : ℝ) < xavier_boundary [2, 3] i
        exact hb)

theorem early_stopping_fit_le (lossOf : ℕ → ℝ) (eps : ℝ) :
    ∀ (fuel : ℕ) (prev : Option ℝ) (t : ℕ),
      t ≤ early_stopping_fit lossOf eps fuel prev t := by
  intro fuel
  induction fuel with
  | zero =>
    intro prev t
    cases prev <;> exact le_refl t
  | succ fuel ih =>
    intro prev t
    cases prev with
    | none =>
      simp only [early_stopping_fit]
      have := ih (some (lossOf t)) (t + 1)
      omega
    | some p =>
      simp only [early_stopping_fit]
      split
      · exact le_refl t
      · have := ih (some (lossOf t)) (t + 1)
        omega

/-- Claim C5 (spec-modelled): the early-stopping loop never stops at the
first epoch (no previous loss exists there), at later epochs it stops
exactly when the absolute difference between this epoch and the previous
epoch validation loss is below epsilon, and on a dataset whose validation
loss is constant from epoch 1 on, with epsilon 1/10000, it stops at the
second epoch. -/
theorem early_stopping_behavior (lossOf : ℕ → ℝ) (eps : ℝ) (fuel : ℕ)
    (hconst : ∀ t, 1 ≤ t → lossOf t = lossOf 1) (heps : eps = 1 / 10000) :
    early_stopping_fit lossOf eps (fuel + 2) none 1 = 2 ∧
    (∀ (g : ℕ) (lf : ℕ → ℝ) (e : ℝ),
      early_stopping_fit lf e (g + 1) none 1 ≠ 1) ∧
    (∀ (g : ℕ) (lf : ℕ → ℝ) (e : ℝ) (p : ℝ) (t : ℕ),
      early_stopping_fit lf e (g + 1) (some p) t = t ↔ |lf t - p| < e) := by
  refine ⟨?_, ?_, ?_⟩
  · have hlt : |lossOf 2 - lossOf 1| < eps := by
      rw [hconst 2 (by omega), sub_self, abs_zero, heps]
      norm_num
    show early_stopping_fit lossOf eps (fuel + 1 + 1) none 1 = 2
    simp only [early_stopping_fit]
    norm_num
    intro hge
    linarith
  · intro g lf e
    have h1 := early_stopping_fit_le lf e g (some (lf 1)) 2
    simp only [early_stopping_fit]
    norm_num
    omega
  · intro g lf e p t
    constructor
    · intro heq
      by_contra habs
      simp only [early_stopping_fit] at heq
      rw [if_neg habs] at heq
      have := early_stopping_fit_le lf e g (some (lf t)) (t + 1)
      omega
    · intro hlt
      simp only [early_stopping_fit]
      rw [if_pos hlt]

/-- Witness for early_stopping_behavior with a constant-zero loss curve. -/
theorem early_stopping_behavior_witness :
    early_stopping_fit (fun _ => 0) (1 / 10000) (0 + 2) none 1 = 2 ∧
    (∀ (g : ℕ) (lf : ℕ → ℝ) (e : ℝ),
      early_stopping_fit lf e (g + 1) none 1 ≠ 1) ∧
    (∀ (g : ℕ) (lf : ℕ → ℝ) (e : ℝ) (p : ℝ) (t : ℕ),
      early_stopping_fit lf e (g + 1) (some p) t = t ↔ |lf t - p| < e) :=
  early_stopping_behavior (fun _ => 0) (1 / 10000) 0 (fun _ _ => rfl) rfl

/-- Claim C7 evaluated at the failing input: with a prediction matrix that
is exactly the one-hot target matrix [[1, 0]], the source computes
0.0 * log2(0.0) = 0.0 * (negative infinity) = NaN inside the row dot
product, so the returned loss is NaN rather than the 0 the claim states. -/
theorem cross_entropy_onehot_fp_nan :
    cross_entropy_fp [[F.fin 1, F.fin 0]] [[F.fin 1, F.fin 0]] = F.nan ∧
    F.nan ≠ F.fin 0 := by
  constructor
  · norm_num [cross_entropy_fp, dotF, F.log2, F.mul, F.add]
  · intro h
    exact F.noConfusion h
